import Mathlib

/-!
Shallow embedding of `src/bigO.c`: the reference algorithms
(binary jump search, block-decomposition range sum, linear search,
quicksort, maximum sequential sum, Tower of Hanoi), the environment
registry and the reporting harness, together with theorems settling the
claims about the program.

A C `struct array` is modelled as a `List Int` whose length is the `sz`
field.  An element read `array->vals[i]` is modelled by `getv`, which
returns `0` for an index outside the allocation; every place where the
C program can actually perform such an out-of-range access is treated
explicitly by a claim (the read value never influences any other result
proved here).
-/

/-- Array element read `vals[i]` (C pointer indexing).  Out-of-range
reads return `0`; in C such a read is undefined behaviour. -/
def getv (a : List Int) (i : Nat) : Int := a.getD i 0

/-! ### binary_jump_search (bigO.c lines 318-328) -/

/-- Inner loop of `binary_jump_search`:
`while(pos + jump < s->haystack->sz && s->haystack->vals[pos+jump] <= s->needle) pos += jump;`.
The parameter `j` stands for `jump - 1`: the outer loop only reaches the
inner loop while `jump > 0` (its `while(jump > 0)` guard), so the actual
jump distance is `j + 1`. -/
def bjs_inner (vals : List Int) (needle : Int) (j : Nat) (pos : Nat) : Nat :=
  if h : pos + (j + 1) < vals.length ∧ getv vals (pos + (j + 1)) ≤ needle then
    bjs_inner vals needle j (pos + (j + 1))
  else pos
termination_by vals.length - pos
decreasing_by omega

/-- Outer loop of `binary_jump_search`:
`while(jump > 0) { ...inner loop...; jump = jump / 2; }`, returning the
final `pos`.  The inner loop is entered with the current `jump`, written
here as `(jump - 1) + 1` because `jump > 0` holds in the branch. -/
def bjs_outer (vals : List Int) (needle : Int) (jump pos : Nat) : Nat :=
  if jump = 0 then pos
  else bjs_outer vals needle (jump / 2) (bjs_inner vals needle (jump - 1) pos)
termination_by jump
decreasing_by exact Nat.div_lt_self (by omega) (by omega)

/-- The position at which `binary_jump_search` performs its final,
unguarded read `s->haystack->vals[pos]` (bigO.c line 326).  The loops
start from `jump = sz / 2`, `pos = 0`. -/
def bjs_final_pos (vals : List Int) (needle : Int) : Nat :=
  bjs_outer vals needle (vals.length / 2) 0

/-- Result of `binary_jump_search`: `true` for the `RESULT("Found needle!")`
branch, `false` for `RESULT("Needle not found!")`. -/
def binary_jump_search (vals : List Int) (needle : Int) : Bool :=
  decide (getv vals (bjs_final_pos vals needle) = needle)

/-! ### linear_search (bigO.c lines 413-423) -/

/-- Loop of `linear_search`: scan `i = 0, 1, ...` while `i < sz`,
returning found as soon as `vals[i] == needle`. -/
def ls_loop (vals : List Int) (needle : Int) (i : Nat) : Bool :=
  if i < vals.length then
    if getv vals i = needle then true else ls_loop vals needle (i + 1)
  else false
termination_by vals.length - i

/-- Result of `linear_search`: `true` for `RESULT("Found needle!")`,
`false` for `RESULT("Needle Not Found!")`. -/
def linear_search (vals : List Int) (needle : Int) : Bool :=
  ls_loop vals needle 0

/-! ### setup_slice_sums and range_sum_query (bigO.c lines 355-385) -/

/-- Fill loop of `setup_slice_sums`:
`for(i = 0; i < array->sz; i++) slice_sum[i/root_sz] += array->vals[i];`,
processing the remaining elements of the array with `i` the index of the
first of them. -/
def slice_fill (root : Nat) : List Int → Nat → List Int → List Int
  | [], _, slices => slices
  | v :: rest, i, slices =>
      slice_fill root rest (i + 1) (slices.set (i / root) (slices.getD (i / root) 0 + v))

/-- `setup_slice_sums`: computes `root_sz = (long)sqrt(array->sz)` (the
double-precision square root of a machine-size integer is exact, so this
is `Nat.sqrt`), allocates `array->sz / root_sz + 1` zeroed slice sums and
accumulates each element into its slice.  Returns `(root_sz, slice_sum)`. -/
def setup_slice_sums (vals : List Int) : Nat × List Int :=
  let root := Nat.sqrt vals.length
  (root, slice_fill root vals 0 (List.replicate (vals.length / root + 1) 0))

/-- First loop of `range_sum_query`:
`while((i+1) % rs->root_sz != 0 && i <= rs->to) sum += rs->array->vals[i++];`.
Returns the final `(i, sum)`. -/
def rsq_loop1 (vals : List Int) (root toi : Nat) (i : Nat) (sum : Int) : Nat × Int :=
  if _h : (i + 1) % root ≠ 0 ∧ i ≤ toi then
    rsq_loop1 vals root toi (i + 1) (sum + getv vals i)
  else (i, sum)
termination_by toi + 1 - i
decreasing_by omega

/-- Second loop of `range_sum_query`:
`while(i + rs->root_sz <= rs->to) { sum += rs->slice_sum[i/rs->root_sz]; i += rs->root_sz; }`.
The conjunct `0 < root` does not appear in the C source: for
`root_sz = 0` the C statement divides by zero (undefined behaviour) and
`i` never advances; the program only calls this with
`root_sz = sqrt(sz) >= 1`, where the conjunct is vacuous.  It makes the
model total. -/
def rsq_loop2 (slice : List Int) (root toi : Nat) (i : Nat) (sum : Int) : Nat × Int :=
  if _h : i + root ≤ toi ∧ 0 < root then
    rsq_loop2 slice root toi (i + root) (sum + getv slice (i / root))
  else (i, sum)
termination_by toi + 1 - i
decreasing_by omega

/-- Third loop of `range_sum_query`:
`while(i <= rs->to) sum += rs->array->vals[i++];`. -/
def rsq_loop3 (vals : List Int) (toi : Nat) (i : Nat) (sum : Int) : Int :=
  if _h : i ≤ toi then rsq_loop3 vals toi (i + 1) (sum + getv vals i)
  else sum
termination_by toi + 1 - i
decreasing_by omega

/-- `range_sum_query` on a `struct range_sum` whose fields are passed
explicitly: the array, the precomputed `slice_sum`, `root_sz`, `from`
(written `frm`) and `to`.  `int i = rs->from; long sum = 0;` then the
three loops. -/
def range_sum_query (vals slice : List Int) (root frm toi : Nat) : Int :=
  let r1 := rsq_loop1 vals root toi frm 0
  let r2 := rsq_loop2 slice root toi r1.1 r1.2
  rsq_loop3 vals toi r2.1 r2.2

/-- Specification-side definition (not from the C source): the naive
direct summation of the elements at indices `frm..to` inclusive, the
value the spec says a range-sum query must return. -/
def naive_range_sum (vals : List Int) (frm toi : Nat) : Int :=
  ((List.range' frm (toi + 1 - frm)).map (getv vals)).sum

/-! ### find_max_seq_sum (bigO.c lines 541-553)

The C routine accumulates in `double` variables; its inputs are C `int`
values and every individual value is exactly representable, so the
arithmetic on them is modelled over `Int` (the claimed properties
concern the exact integer values). -/

/-- Inner loop of `find_max_seq_sum`:
`for(j = i; j < array->sz; j++) { curr_sum += array->vals[j]; if(curr_sum > max_sum) max_sum = curr_sum; }`,
iterating over the suffix of the array that starts at `j = i`. -/
def msl_inner : List Int → Int → Int → Int
  | [], _, max_sum => max_sum
  | v :: rest, curr_sum, max_sum =>
      let c := curr_sum + v
      msl_inner rest c (if max_sum < c then c else max_sum)

/-- Outer loop of `find_max_seq_sum`: for each start index `i` (suffix of
the array), run the inner loop with `curr_sum = 0`. -/
def msl_outer : List Int → Int → Int
  | [], max_sum => max_sum
  | v :: rest, max_sum => msl_outer rest (msl_inner (v :: rest) 0 max_sum)

/-- `find_max_seq_sum`: `double max_sum = 0;` then the two nested loops;
the final `max_sum` is the reported result. -/
def find_max_seq_sum (vals : List Int) : Int :=
  msl_outer vals 0

/-! ### solve_hanoi (bigO.c lines 596-604) -/

/-- `solve_hanoi_1`: emits the list of `RESULT("move remaining one ...")`
notifications in order.  `if(num < 1) return;` then a recursive call for
`num > 1`, the move notification, and a second recursive call for
`num > 1`.  `num` is a C `long`, so `Int`. -/
def solve_hanoi_1 (num : Int) (from_peg to_peg spare_peg : Int) : List Unit :=
  if num < 1 then []
  else
    (if h1 : 1 < num then solve_hanoi_1 (num - 1) from_peg spare_peg to_peg else []) ++
    [()] ++
    (if h1 : 1 < num then solve_hanoi_1 (num - 1) spare_peg to_peg from_peg else [])
termination_by num.toNat
decreasing_by all_goals omega

/-- `solve_hanoi`: runs `solve_hanoi_1(num, 1, 2, 3)`. -/
def solve_hanoi (num : Int) : List Unit :=
  solve_hanoi_1 num 1 2 3

/-! ### Range-bound sampling in create_environments (bigO.c lines 759-764)

`rs->from = rand()%(rs->array->sz); rs->to = rand()%(rs->array->sz);`
`while(rs->from < rs->to) { rs->from = ...; rs->to = ...; }`

The stream of `rand()`-derived pairs is passed explicitly: `first` is
the initial pair and `draws` the pairs produced by later iterations.
`none` means the supplied draws ran out while the loop condition still
held (the C loop would keep drawing). -/
def sample_bounds : Int × Int → List (Int × Int) → Option (Int × Int)
  | p, draws =>
      if p.1 < p.2 then
        match draws with
        | [] => none
        | d :: rest => sample_bounds d rest
      else some p

/-! ### quick_sort (bigO.c lines 462-492) -/

/-- Left-cursor scan of `partition_1`:
`while(array[left] <= pivot && left <= high) left++;`.
The C condition reads `array[left]` before testing `left <= high`, so a
read at `left = high + 1` happens whenever the cursor walks past `high`
(an out-of-bounds access when `high + 1` is outside the allocation); the
value read there cannot keep the loop running, because the conjunct
`left <= high` already fails. -/
def lscan (a : List Int) (pivot : Int) (high left : Nat) : Nat :=
  if h : getv a left ≤ pivot ∧ left ≤ high then lscan a pivot high (left + 1)
  else left
termination_by high + 1 - left
decreasing_by omega

/-- Instrumented left-cursor scan: the same loop as `lscan`, returning in
addition every index at which the loop condition evaluated `array[left]`
(each evaluation of the condition reads `array[left]` first, including
the final, failing one). -/
def lscanR (a : List Int) (pivot : Int) (high left : Nat) : Nat × List Nat :=
  if h : getv a left ≤ pivot ∧ left ≤ high then
    let rest := lscanR a pivot high (left + 1)
    (rest.1, left :: rest.2)
  else (left, [left])
termination_by high + 1 - left
decreasing_by omega

/-- Right-cursor scan of `partition_1`: `while(array[right] > pivot) right--;`.
The C loop has no lower bound of its own; in every call the program makes,
`array[low] = pivot` with `low >= 0` stops the scan at an index `>= low`.
The base case `0 => 0` below returns without the comparison the C code
performs at `right = 0`; the two differ only when `array[0] > pivot`
(where C would continue to the out-of-bounds `array[-1]`), a situation
the program's calls never produce. -/
def rscan (a : List Int) (pivot : Int) : Nat → Nat
  | 0 => 0
  | r + 1 => if pivot < getv a (r + 1) then rscan a pivot r else r + 1

/-- The swap inside `partition_1`'s loop:
`tmp = array[left]; array[left] = array[right]; array[right] = tmp;`. -/
def swapA (a : List Int) (i j : Nat) : List Int :=
  (a.set i (getv a j)).set j (getv a i)

/-- Outer loop of `partition_1` (`while(left < right) { ... }`): each
iteration runs the two cursor scans, swaps when `left < right` still
holds for the new cursors, and re-tests the loop condition.  `fuel`
bounds the number of iterations; the fuel passed by `partition_1` is
proved sufficient for every call the program makes (on exhausted fuel the
current state is returned; parameter combinations that would exhaust it
are ones on which the C loop itself never terminates). -/
def ploop (pivot : Int) (high : Nat) : Nat → List Int → Nat → Nat → List Int × Nat × Nat
  | 0, a, left, right => (a, left, right)
  | fuel + 1, a, left, right =>
      if left < right then
        let l := lscan a pivot high left
        let r := rscan a pivot right
        if l < r then ploop pivot high fuel (swapA a l r) l r
        else (a, l, r)
      else (a, left, right)

/-- `partition_1`: `pivot = array[low]`; run the cursor loop from
`(left, right) = (low, high)`; then `array[low] = array[right];
array[right] = pivot;` and return `right`. -/
def partition_1 (a : List Int) (low high : Nat) : List Int × Nat :=
  let pivot := getv a low
  let res := ploop pivot high (high + 2 - low) a low high
  (((res.1).set low (getv res.1 res.2.2)).set res.2.2 pivot, res.2.2)

/-! Support lemmas about the cursor scans, needed below (in particular
for the termination of `quick_sort_1`). -/

/-- The left scan never moves the cursor backwards. -/
theorem lscan_ge (a : List Int) (pivot : Int) (high left : Nat) :
    left ≤ lscan a pivot high left := by
  induction left using lscan.induct a pivot high with
  | case1 left h ih => rw [lscan, dif_pos h]; omega
  | case2 left h => rw [lscan, dif_neg h]

/-- When the scanned value is within the pivot bound and the cursor is
within the subrange, the left scan advances at least one position. -/
theorem lscan_adv (a : List Int) (pivot : Int) (high left : Nat)
    (h1 : getv a left ≤ pivot) (h2 : left ≤ high) :
    left + 1 ≤ lscan a pivot high left := by
  rw [lscan, dif_pos ⟨h1, h2⟩]; exact lscan_ge a pivot high (left + 1)

/-- The left scan stops no later than `high + 1`. -/
theorem lscan_le (a : List Int) (pivot : Int) (high left : Nat)
    (h : left ≤ high + 1) : lscan a pivot high left ≤ high + 1 := by
  induction left using lscan.induct a pivot high with
  | case1 left hc ih => rw [lscan, dif_pos hc]; exact ih (by omega)
  | case2 left hc => rw [lscan, dif_neg hc]; exact h

/-- Every position the left scan walked past holds a value `<= pivot`. -/
theorem lscan_fence (a : List Int) (pivot : Int) (high left : Nat) :
    ∀ p, left ≤ p → p < lscan a pivot high left → getv a p ≤ pivot := by
  induction left using lscan.induct a pivot high with
  | case1 left hc ih =>
      intro p hp1 hp2
      rw [lscan, dif_pos hc] at hp2
      rcases Nat.eq_or_lt_of_le hp1 with he | hlt
      · exact he ▸ hc.1
      · exact ih p hlt hp2
  | case2 left hc =>
      intro p hp1 hp2
      rw [lscan, dif_neg hc] at hp2
      omega

/-- If the left scan stops at an index within the subrange, the value
there is `> pivot` (the stop was due to the value test). -/
theorem lscan_stop (a : List Int) (pivot : Int) (high left : Nat)
    (h : lscan a pivot high left ≤ high) :
    pivot < getv a (lscan a pivot high left) := by
  induction left using lscan.induct a pivot high with
  | case1 left hc ih => rw [lscan, dif_pos hc] at h ⊢; exact ih h
  | case2 left hc =>
      rw [lscan, dif_neg hc] at h ⊢
      rcases not_and_or.mp hc with hv | hb
      · omega
      · omega

/-- The right scan never moves the cursor forwards. -/
theorem rscan_le (a : List Int) (pivot : Int) :
    ∀ right, rscan a pivot right ≤ right := by
  intro right
  induction right with
  | zero => simp [rscan]
  | succ r ih =>
      by_cases hc : pivot < getv a (r + 1)
      · simp only [rscan, if_pos hc]; omega
      · simp only [rscan, if_neg hc]; omega

/-- If some position `low <= right` holds a value `<= pivot`, the right
scan stops at an index `>= low`, and the value at the stop index is
`<= pivot`. -/
theorem rscan_low (a : List Int) (pivot : Int) (low : Nat)
    (hl : getv a low ≤ pivot) :
    ∀ right, low ≤ right →
      low ≤ rscan a pivot right ∧ getv a (rscan a pivot right) ≤ pivot := by
  intro right
  induction right with
  | zero =>
      intro h0
      have hl0 : low = 0 := by omega
      subst hl0
      simpa [rscan] using hl
  | succ r ih =>
      intro hlr
      by_cases hc : pivot < getv a (r + 1)
      · have hne : low ≠ r + 1 := by
          intro he; rw [he] at hl; omega
        simp only [rscan, if_pos hc]
        exact ih (by omega)
      · simp only [rscan, if_neg hc]
        exact ⟨hlr, by omega⟩

/-- Every position the right scan walked past holds a value `> pivot`. -/
theorem rscan_fence (a : List Int) (pivot : Int) :
    ∀ right p, rscan a pivot right < p → p ≤ right → pivot < getv a p := by
  intro right
  induction right with
  | zero => intro p h1 h2; simp [rscan] at h1; omega
  | succ r ih =>
      intro p h1 h2
      by_cases hc : pivot < getv a (r + 1)
      · simp only [rscan, if_pos hc] at h1
        rcases Nat.eq_or_lt_of_le h2 with he | hlt
        · exact he ▸ hc
        · exact ih p h1 (by omega)
      · simp only [rscan, if_neg hc] at h1
        omega

/-- Reading a position other than the written one through `List.set`. -/
theorem getv_set_ne (a : List Int) (i p : Nat) (v : Int) (h : p ≠ i) :
    getv (a.set i v) p = getv a p := by
  simp [getv, List.getD, List.getElem?_set_ne (by omega : i ≠ p)]

/-- Reading the written position through `List.set` (index in range). -/
theorem getv_set_eq (a : List Int) (i : Nat) (v : Int) (h : i < a.length) :
    getv (a.set i v) i = v := by
  simp [getv, List.getD, List.getElem?_set_self, h]

/-- Reading positions other than the two swapped ones. -/
theorem getv_swapA_ne (a : List Int) (i j p : Nat) (h1 : p ≠ i) (h2 : p ≠ j) :
    getv (swapA a i j) p = getv a p := by
  unfold swapA
  rw [getv_set_ne _ _ _ _ h2, getv_set_ne _ _ _ _ h1]

/-- For every input the program reaches, the cursor loop keeps
`array[low] = pivot` (no swap touches an index `<= low`) and ends with
its right cursor inside `[low, high]`. -/
theorem ploop_low_bounds (pivot : Int) (high low : Nat) :
    ∀ (fuel : Nat) (a : List Int) (left right : Nat),
      low ≤ left → low ≤ right → right ≤ high → low ≤ high →
      getv a low = pivot →
      low ≤ (ploop pivot high fuel a left right).2.2 ∧
      (ploop pivot high fuel a left right).2.2 ≤ high ∧
      getv (ploop pivot high fuel a left right).1 low = pivot := by
  intro fuel
  induction fuel with
  | zero =>
      intro a left right h1 h2 h3 h4 h5
      exact ⟨h2, h3, h5⟩
  | succ fuel ih =>
      intro a left right h1 h2 h3 h4 h5
      by_cases hlr : left < right
      · have hlge : left ≤ lscan a pivot high left := lscan_ge a pivot high left
        have hrlow := rscan_low a pivot low (le_of_eq h5) right h2
        have hrle : rscan a pivot right ≤ right := rscan_le a pivot right
        by_cases hswap : lscan a pivot high left < rscan a pivot right
        · have hlpos : low + 1 ≤ lscan a pivot high left := by
            rcases Nat.eq_or_lt_of_le h1 with heq | hlt
            · have := lscan_adv a pivot high left (heq ▸ le_of_eq h5) (by omega)
              omega
            · omega
          have hgl : getv (swapA a (lscan a pivot high left) (rscan a pivot right)) low
              = pivot := by
            rw [getv_swapA_ne a _ _ low (by omega) (by omega)]
            exact h5
          have := ih (swapA a (lscan a pivot high left) (rscan a pivot right))
            (lscan a pivot high left) (rscan a pivot right)
            (by omega) hrlow.1 (by omega) h4 hgl
          simpa [ploop, if_pos hlr, if_pos hswap] using this
        · have : (ploop pivot high (fuel + 1) a left right)
              = (a, lscan a pivot high left, rscan a pivot right) := by
            simp [ploop, if_pos hlr, if_neg hswap]
          rw [this]
          exact ⟨hrlow.1, (show rscan a pivot right ≤ high by omega), h5⟩
      · have : (ploop pivot high (fuel + 1) a left right) = (a, left, right) := by
          simp [ploop, if_neg hlr]
        rw [this]
        exact ⟨h2, h3, h5⟩

/-- The index returned by `partition_1` lies inside `[low, high]`
whenever `low < high` (the only way the program calls it). -/
theorem partition_1_bounds (a : List Int) (low high : Nat) (hlh : low < high) :
    low ≤ (partition_1 a low high).2 ∧ (partition_1 a low high).2 ≤ high := by
  have h := ploop_low_bounds (getv a low) high low (high + 2 - low) a low high
    le_rfl (by omega) le_rfl (by omega) rfl
  exact ⟨h.1, h.2.1⟩

/-- `quick_sort_1`: `if(low < high)` partition, then recurse on
`[low, pivot-1]` and `[pivot+1, high]` (the C `pivot` variable is the
returned partition index).  C indices are `long`; within the program all
of them stay in `[0, sz]`, and `pivot - 1` at `pivot = 0` (Nat
truncation to `0`) makes the left call a no-op exactly as the C call
with high bound `-1` is. -/
def quick_sort_1 (a : List Int) (low high : Nat) : List Int :=
  if h : low < high then
    quick_sort_1
      (quick_sort_1 (partition_1 a low high).1 low ((partition_1 a low high).2 - 1))
      ((partition_1 a low high).2 + 1) high
  else a
termination_by high + 1 - low
decreasing_by
  · have hb := partition_1_bounds a low high h
    omega
  · have hb := partition_1_bounds a low high h
    omega

/-- `quick_sort`: sorts the whole backing array,
`quick_sort_1(array->vals, 0, array->sz - 1)`. -/
def quick_sort (a : List Int) : List Int :=
  quick_sort_1 a 0 (a.length - 1)

/-! ### Environment registry and reporting harness (bigO.c lines 211-241,
650-699, 723-827) -/

/-- `enum OClass` (bigO.c lines 211-221). -/
inductive OClass
  | O1
  | O_logn
  | O_sqrtn
  | O_n
  | O_nlogn
  | O_n_power_2
  | O_2_power_n
  | O_n_permut
  | O_n_power_n
deriving DecidableEq

/-- `oclass_1_str` (bigO.c lines 650-663).  The C `default` branch
returning `"ERROR!"` is unreachable for a well-formed enum value and has
no counterpart in the total match. -/
def oclass_1_str : OClass → String
  | .O1 => "O(1)"
  | .O_logn => "O(log(n))"
  | .O_sqrtn => "O(sqrt(n))"
  | .O_n => "O(n)"
  | .O_nlogn => "O(n log(n))"
  | .O_n_power_2 => "O(n^2)"
  | .O_2_power_n => "O(2^n)"
  | .O_n_permut => "O(n!)"
  | .O_n_power_n => "O(n^n)"

/-- The algorithm a `func` pointer in an environment entry refers to. -/
inductive algo_fn
  | get_first
  | binary_jump_search
  | range_sum_query
  | linear_search
  | quick_sort
  | find_max_seq_sum
  | solve_hanoi
  | do_nothing
deriving DecidableEq

/-- The data payload a `void *data` pointer in an environment entry
refers to: a `struct array`, a `struct search`, a `struct range_sum`, or
the integer smuggled in by the cast `(void*)sz` for Tower of Hanoi. -/
inductive payload
  | parr (vals : List Int)
  | psearch (needle : Int) (haystack : List Int)
  | prs (vals slice : List Int) (root : Nat) (frm toi : Int)
  | pnum (n : Int)

/-- `struct environment` (bigO.c lines 236-241); `none` models a NULL
pointer for `algo` (the end marker) and for `data` (the unimplemented
entries). -/
structure environment where
  n : Int
  algo : Option algo_fn
  data : Option payload
  oclass : OClass

/-- One line printed by `show_time_taken` (bigO.c lines 667-688): the
class label, the declared `n`, and whether the entry executed (printing
an elapsed time, not modelled further) or printed `"(Not executed)"`
(the `!environment->data` branch). -/
structure report_line where
  label : String
  n : Int
  executed : Bool
deriving DecidableEq

/-- `show_time_taken` on one entry (the entry's `algo` is non-NULL when
this is reached). -/
def show_time_taken (e : environment) : report_line :=
  { label := oclass_1_str e.oclass, n := e.n, executed := e.data.isSome }

/-- `show_algo_results` (bigO.c lines 694-699): walk the entries in
order until the end marker (`algo == NULL`), printing one line each. -/
def show_algo_results : List environment → List report_line
  | [] => []
  | e :: rest =>
      match e.algo with
      | none => []
      | some _ => show_time_taken e :: show_algo_results rest

/-- `create_environments` (bigO.c lines 723-827).  The pseudo-random
inputs are passed explicitly: `raw_sorted`, `raw_arr`, `raw_mut` are the
three `create_int_array(sz)` results, `needle_idx` the index
`rand()%(sorted_array->sz)` drawn for the needle, and `ft` the
`(from, to)` pair produced by the re-sampling loop of lines 759-764
(that loop itself is embedded as `sample_bounds`).  The registry is the
fixed nine-entry list plus the end marker; `(void*)sz` for the Tower of
Hanoi entry is a NULL data pointer exactly when `sz = 0`. -/
def create_environments (sz : Int) (raw_sorted raw_arr raw_mut : List Int)
    (needle_idx : Nat) (ft : Int × Int) : List environment :=
  let sorted_array := quick_sort raw_sorted
  let needle := getv sorted_array needle_idx
  let ss := setup_slice_sums raw_arr
  [ { n := sz, algo := some .get_first, data := some (.parr raw_arr),
      oclass := .O1 },
    { n := sz, algo := some .binary_jump_search,
      data := some (.psearch needle sorted_array), oclass := .O_logn },
    { n := sz, algo := some .range_sum_query,
      data := some (.prs raw_arr ss.2 ss.1 ft.1 ft.2), oclass := .O_sqrtn },
    { n := sz, algo := some .linear_search,
      data := some (.psearch needle sorted_array), oclass := .O_n },
    { n := sz, algo := some .quick_sort, data := some (.parr raw_mut),
      oclass := .O_nlogn },
    { n := sz, algo := some .find_max_seq_sum, data := some (.parr raw_arr),
      oclass := .O_n_power_2 },
    { n := sz, algo := some .solve_hanoi,
      data := if sz = 0 then none else some (.pnum sz),
      oclass := .O_2_power_n },
    { n := sz, algo := some .do_nothing, data := none, oclass := .O_n_permut },
    { n := sz, algo := some .do_nothing, data := none, oclass := .O_n_power_n },
    { n := 0, algo := none, data := none, oclass := .O1 } ]

/-! ### Command line handling (bigO.c lines 829-838) -/

/-- Digit-accumulation part of the C library `atol`: consume leading
decimal digits, ignore everything from the first non-digit on. -/
def atol_digits : List Char → Int → Int
  | [], acc => acc
  | c :: cs, acc =>
      if c.isDigit then atol_digits cs (acc * 10 + (c.toNat - 48 : Int))
      else acc

/-- Leading-whitespace skipping of the C library `atol`. -/
def skip_ws : List Char → List Char
  | [] => []
  | c :: cs => if c = ' ' ∨ c = '\t' ∨ c = '\n' ∨ c = '\r' then skip_ws cs
    else c :: cs

/-- Model of the C library `atol` (ISO C `strtol` with base 10 and no
error handling): optional whitespace, optional sign, leading digits;
a string with no leading numeric prefix yields `0`. -/
def atol (s : String) : Int :=
  match skip_ws s.data with
  | '-' :: cs => - atol_digits cs 0
  | '+' :: cs => atol_digits cs 0
  | cs => atol_digits cs 0

/-- `get_sz` (bigO.c lines 829-832): `0` when no argument was given,
otherwise `atol(argv[1])`.  `args` is the full argv, program name
included, so `argc < 2` is `args.length < 2`. -/
def get_sz (args : List String) : Int :=
  if args.length < 2 then 0 else atol (args.getD 1 "")

/-- Observable behaviour of `main`: either the usage line (with the
program name `argv[0]` interpolated) or the report produced by running
the registry. -/
inductive main_result
  | usage (progname : String)
  | report (lines : List report_line)
deriving DecidableEq

/-- `main` (bigO.c lines 834-838; named `main_c` here because Lean
reserves `main` for an executable entry point): `sz = get_sz(...)`;
`if(!sz)` print the usage message, else build the environments and show
the report.  The pseudo-random inputs consumed by `create_environments`
are passed through explicitly. -/
def main_c (args : List String) (raw_sorted raw_arr raw_mut : List Int)
    (needle_idx : Nat) (ft : Int × Int) : main_result :=
  let sz := get_sz args
  if sz = 0 then .usage (args.getD 0 "")
  else .report (show_algo_results
    (create_environments sz raw_sorted raw_arr raw_mut needle_idx ft))

/-! ## Support lemmas for the claims -/

/-- The instrumented left scan computes the same final cursor as `lscan`:
`lscanR` is the same loop, with the trace of condition reads added. -/
theorem lscan_eq_lscanR_fst (a : List Int) (pivot : Int) (high left : Nat) :
    lscan a pivot high left = (lscanR a pivot high left).1 := by
  induction left using lscan.induct a pivot high with
  | case1 left h ih => rw [lscan, dif_pos h, lscanR, dif_pos h]; exact ih
  | case2 left h => rw [lscan, dif_neg h, lscanR, dif_neg h]

/-- Length of the Tower of Hanoi notification list. -/
theorem solve_hanoi_1_length :
    ∀ (n : Nat) (num : Int), num.toNat ≤ n → ∀ f t s : Int,
      (solve_hanoi_1 num f t s).length = 2 ^ num.toNat - 1 := by
  intro n
  induction n with
  | zero =>
      intro num h f t s
      rw [solve_hanoi_1, if_pos (by omega : num < 1)]
      have h0 : num.toNat = 0 := by omega
      rw [h0]
      rfl
  | succ n ih =>
      intro num h f t s
      by_cases h1 : num < 1
      · rw [solve_hanoi_1, if_pos h1]
        have h0 : num.toNat = 0 := by omega
        rw [h0]
        rfl
      · rw [solve_hanoi_1, if_neg h1]
        by_cases h2 : 1 < num
        · rw [dif_pos h2, dif_pos h2]
          simp only [List.length_append, List.length_cons, List.length_nil]
          rw [ih (num - 1) (by omega), ih (num - 1) (by omega)]
          have hs : num.toNat = (num - 1).toNat + 1 := by omega
          rw [hs, pow_succ]
          have hp : 1 ≤ 2 ^ (num - 1).toNat := Nat.one_le_two_pow
          omega
        · have h1' : num = 1 := by omega
          subst h1'
          rw [dif_neg h2, dif_neg h2]
          rfl

/-! ## Theorems for the claims -/

/-- C1 (code bug): the re-sampling loop for the range-sum query bounds
(`while(rs->from < rs->to) { resample }`, bigO.c lines 761-764) accepts
its very first draw whenever `from >= to`; at the draw
`(from, to) = (1, 0)` (possible for any `sz >= 2`) the established
bounds have `from = 1 > to = 0`, so the environment handed to
`range_sum_query` violates `from <= to`.  The loop keeps exactly the
pairs the claim says it rejects. -/
theorem sample_bounds_accepts_from_gt_to :
    sample_bounds (1, 0) [] = some (1, 0) ∧ ¬ ((1 : Int) ≤ (0 : Int)) := by
  constructor
  · rfl
  · decide

/-- C2 (code bug): on the array `[1, 2, 4, 8]` (`sz = 4`,
`root_sz = sqrt(4) = 2`, `slice_sum = [3, 12, 0]`) with the in-range
query `from = 0`, `to = 3`, `range_sum_query` returns `12`, while the
naive direct summation over the range is `15`: the first loop's
`(i+1) % root_sz` boundary test stops one element before the block
boundary, so the following whole-block addition double-counts the
already-summed prefix (here `vals[0] = 1`) and the cursor jump skips
elements (here `vals[2] = 4`). -/
theorem range_sum_query_mismatch :
    (setup_slice_sums [1, 2, 4, 8]).1 = 2 ∧
    (setup_slice_sums [1, 2, 4, 8]).2 = [3, 12, 0] ∧
    range_sum_query [1, 2, 4, 8] [3, 12, 0] 2 0 3 = 12 ∧
    naive_range_sum [1, 2, 4, 8] 0 3 = 15 := by
  have h4 : Nat.sqrt 4 = 2 := by simpa using Nat.sqrt_eq 2
  refine ⟨?_, ?_, ?_, ?_⟩
  · simp [setup_slice_sums, h4]
  · simp [setup_slice_sums, h4, slice_fill]
  · simp [range_sum_query, rsq_loop1, rsq_loop2, rsq_loop3, getv]
  · decide

/-- C4 (code bug): partitioning the subrange `low = 0`, `high = 1` of
the array `[1, 0]` (pivot `1`, every element `<= pivot`), the
left-cursor loop of `partition_1` evaluates `array[left]` at the indices
`0`, `1` and `2`: the access at `2 = high + 1` is outside `[low, high]`
(and outside the whole two-element array), because the C condition
`array[left] <= pivot && left <= high` reads `array[left]` before
testing `left <= high`. -/
theorem partition_1_left_scan_reads_high_succ :
    (lscanR [1, 0] 1 1 0).2 = [0, 1, 2] ∧ 1 + 1 ∈ (lscanR [1, 0] 1 1 0).2 := by
  have h : (lscanR [1, 0] 1 1 0).2 = [0, 1, 2] := by
    simp [lscanR, getv]
  exact ⟨h, by rw [h]; simp⟩

/-- C5 (code bug): `binary_jump_search` has no guard for a zero-length
haystack: with `sz = 0` the halving loop is skipped (`jump = 0/2 = 0`)
and the final comparison `s->haystack->vals[pos] == s->needle`
(bigO.c line 326) unconditionally reads position `0`, which is not
within the bounds of the empty backing array. -/
theorem binary_jump_search_empty_reads_position_zero :
    bjs_final_pos ([] : List Int) 7 = 0 ∧
    ¬ (bjs_final_pos ([] : List Int) 7 < ([] : List Int).length) := by
  constructor
  · simp [bjs_final_pos, bjs_outer]
  · simp [bjs_final_pos, bjs_outer]

/-- C7: for every disk count `num >= 0`, `solve_hanoi_1` emits exactly
`2^num - 1` move notifications; in particular none for `num = 0` and
exactly one for `num = 1`. -/
theorem solve_hanoi_count (num : Int) (f t s : Int) (_h : 0 ≤ num) :
    (solve_hanoi_1 num f t s).length = 2 ^ num.toNat - 1 ∧
    (solve_hanoi_1 0 f t s).length = 0 ∧
    (solve_hanoi_1 1 f t s).length = 1 := by
  refine ⟨solve_hanoi_1_length num.toNat num le_rfl f t s, ?_, ?_⟩
  · rw [solve_hanoi_1_length 0 0 (by simp) f t s]
    rfl
  · rw [solve_hanoi_1_length 1 1 (by simp) f t s]
    rfl

/-- Witness for C7 at `num = 3`: `2^3 - 1 = 7` notifications. -/
theorem solve_hanoi_count_witness :
    (solve_hanoi_1 3 1 2 3).length = 2 ^ (3 : Int).toNat - 1 :=
  (solve_hanoi_count 3 1 2 3 (by decide)).1

/-- Monotone growth of the inner loop of `find_max_seq_sum`: the running
maximum never decreases. -/
theorem msl_inner_ge (l : List Int) : ∀ c m : Int, m ≤ msl_inner l c m := by
  induction l with
  | nil => intro c m; simp [msl_inner]
  | cons v rest ih =>
      intro c m
      simp only [msl_inner]
      refine le_trans ?_ (ih (c + v) (if m < c + v then c + v else m))
      split <;> omega

/-- The inner loop of `find_max_seq_sum` is monotone in the incoming
maximum. -/
theorem msl_inner_mono (l : List Int) :
    ∀ c m m' : Int, m ≤ m' → msl_inner l c m ≤ msl_inner l c m' := by
  induction l with
  | nil => intro c m m' h; simpa [msl_inner] using h
  | cons v rest ih =>
      intro c m m' h
      simp only [msl_inner]
      refine ih (c + v) _ _ ?_
      split <;> split <;> omega

/-- Monotone growth of the outer loop of `find_max_seq_sum`. -/
theorem msl_outer_ge (l : List Int) : ∀ m : Int, m ≤ msl_outer l m := by
  induction l with
  | nil => intro m; simp [msl_outer]
  | cons v rest ih =>
      intro m
      simp only [msl_outer]
      exact le_trans (msl_inner_ge (v :: rest) 0 m) (ih _)

/-- The outer loop of `find_max_seq_sum` is monotone in the incoming
maximum. -/
theorem msl_outer_mono (l : List Int) :
    ∀ m m' : Int, m ≤ m' → msl_outer l m ≤ msl_outer l m' := by
  induction l with
  | nil => intro m m' h; simpa [msl_outer] using h
  | cons v rest ih =>
      intro m m' h
      simp only [msl_outer]
      exact ih _ _ (msl_inner_mono (v :: rest) 0 m m' h)

/-- Every element of the array is a lower bound for `find_max_seq_sum`
(the inner loop's first step considers the one-element window). -/
theorem find_max_seq_sum_ge_elem (vals : List Int) :
    ∀ x ∈ vals, x ≤ find_max_seq_sum vals := by
  induction vals with
  | nil => intro x hx; cases hx
  | cons v rest ih =>
      intro x hx
      rcases List.mem_cons.mp hx with he | hr
      · subst he
        show x ≤ msl_outer (x :: rest) 0
        simp only [msl_outer, msl_inner]
        refine le_trans ?_ (msl_outer_ge rest _)
        refine le_trans ?_ (msl_inner_ge rest (0 + x) _)
        split <;> omega
      · have h1 : find_max_seq_sum rest ≤ msl_outer rest (msl_inner (v :: rest) 0 0) :=
          msl_outer_mono rest 0 _ (msl_inner_ge (v :: rest) 0 0)
        exact le_trans (ih x hr) h1

/-- C8: for every input array, `find_max_seq_sum` is at least `0` (the
running maximum starts there, so an all-negative input reports `0` by
design) and at least every individual element; on `[1, -2, 3, 4, -1]`
it returns `7`. -/
theorem find_max_seq_sum_props (vals : List Int) :
    0 ≤ find_max_seq_sum vals ∧
    (∀ x ∈ vals, x ≤ find_max_seq_sum vals) ∧
    find_max_seq_sum [1, -2, 3, 4, -1] = 7 := by
  refine ⟨msl_outer_ge vals 0, find_max_seq_sum_ge_elem vals, ?_⟩
  decide

/-- Witness for C8 at the concrete array `[1, -2, 3, 4, -1]` and the
element `-2`. -/
theorem find_max_seq_sum_props_witness :
    (-2 : Int) ≤ find_max_seq_sum [1, -2, 3, 4, -1] :=
  (find_max_seq_sum_props [1, -2, 3, 4, -1]).2.1 (-2) (by decide)

/-- C9: for every positive size (and whatever pseudo-random inputs the
setup drew), the report is exactly nine lines, one per complexity class
in the fixed order O(1), O(log n), O(sqrt n), O(n), O(n log n), O(n^2),
O(2^n), O(n!), O(n^n), and exactly the O(n!) and O(n^n) lines show
"(Not executed)" instead of an elapsed time. -/
theorem report_structure (sz : Int) (h : 0 < sz)
    (raw_sorted raw_arr raw_mut : List Int) (needle_idx : Nat) (ft : Int × Int) :
    (show_algo_results
      (create_environments sz raw_sorted raw_arr raw_mut needle_idx ft)).length = 9 ∧
    (show_algo_results
      (create_environments sz raw_sorted raw_arr raw_mut needle_idx ft)).map
        report_line.label =
      ["O(1)", "O(log(n))", "O(sqrt(n))", "O(n)", "O(n log(n))", "O(n^2)",
        "O(2^n)", "O(n!)", "O(n^n)"] ∧
    (show_algo_results
      (create_environments sz raw_sorted raw_arr raw_mut needle_idx ft)).map
        report_line.executed =
      [true, true, true, true, true, true, true, false, false] := by
  have hsz : ¬ sz = 0 := by omega
  refine ⟨?_, ?_, ?_⟩ <;>
    simp [create_environments, show_algo_results, show_time_taken, oclass_1_str, hsz]

/-- Witness for C9 at size 1000 (with empty random arrays). -/
theorem report_structure_witness :
    (show_algo_results
      (create_environments 1000 [] [] [] 0 (0, 0))).length = 9 :=
  (report_structure 1000 (by decide) [] [] [] 0 (0, 0)).1

/-- C10: the program prints the usage message (and builds no
environment) exactly when the size argument is absent or parses to zero
(`atol` of a non-numeric string such as `"x17"` yields `0`); for every
argument parsing to a nonzero value it builds the environments and runs
the full report. -/
theorem main_usage_iff (args : List String)
    (raw_sorted raw_arr raw_mut : List Int) (needle_idx : Nat) (ft : Int × Int) :
    (main_c args raw_sorted raw_arr raw_mut needle_idx ft =
        .usage (args.getD 0 "") ↔ get_sz args = 0) ∧
    (get_sz args = 0 ↔ (args.length < 2 ∨ atol (args.getD 1 "") = 0)) ∧
    (get_sz args ≠ 0 →
      main_c args raw_sorted raw_arr raw_mut needle_idx ft =
        .report (show_algo_results
          (create_environments (get_sz args) raw_sorted raw_arr raw_mut
            needle_idx ft))) ∧
    atol "x17" = 0 := by
  refine ⟨?_, ?_, ?_, ?_⟩
  · by_cases hz : get_sz args = 0
    · simp [main_c, hz]
    · simp [main_c, hz]
  · unfold get_sz
    by_cases hl : args.length < 2
    · simp [hl]
    · simp [hl]
  · intro hz
    simp [main_c, hz]
  · decide

/-- Witness for C10: with arguments `["bigO", "5"]` the size parses to
`5 != 0` and the full report runs. -/
theorem main_usage_iff_witness :
    main_c ["bigO", "5"] [] [] [] 0 (0, 0) =
      .report (show_algo_results (create_environments (get_sz ["bigO", "5"])
        [] [] [] 0 (0, 0))) :=
  (main_usage_iff ["bigO", "5"] [] [] [] 0 (0, 0)).2.2.1 (by decide)

/-! ## Search correctness (claim C6) -/

/-- Index form of sortedness: in a sorted array, values are monotone in
the index. -/
theorem sorted_getv (vals : List Int) (hs : List.Sorted (· ≤ ·) vals) :
    ∀ p q, p ≤ q → q < vals.length → getv vals p ≤ getv vals q := by
  intro p q hpq hq
  have hp : p < vals.length := lt_of_le_of_lt (by omega) hq
  rw [getv, getv, List.getD_eq_getElem vals 0 hp, List.getD_eq_getElem vals 0 hq]
  rcases Nat.eq_or_lt_of_le hpq with he | hlt
  · subst he; exact le_refl _
  · exact List.pairwise_iff_getElem.mp hs p q hp hq hlt

/-- The jump-search cursor never leaves the array. -/
theorem bjs_inner_lt (vals : List Int) (needle : Int) (j : Nat) :
    ∀ pos, pos < vals.length → bjs_inner vals needle j pos < vals.length := by
  intro pos
  induction pos using bjs_inner.induct vals needle j with
  | case1 pos h ih =>
      intro hp
      rw [bjs_inner, dif_pos h]
      exact ih (by omega)
  | case2 pos h =>
      intro hp
      rw [bjs_inner, dif_neg h]
      exact hp

/-- After the inner loop, the cursor value is still within the needle
bound and the loop condition fails at distance `j + 1`. -/
theorem bjs_inner_post (vals : List Int) (needle : Int) (j : Nat) :
    ∀ pos, getv vals pos ≤ needle →
      getv vals (bjs_inner vals needle j pos) ≤ needle ∧
      ¬ (bjs_inner vals needle j pos + (j + 1) < vals.length ∧
          getv vals (bjs_inner vals needle j pos + (j + 1)) ≤ needle) := by
  intro pos
  induction pos using bjs_inner.induct vals needle j with
  | case1 pos h ih =>
      intro _
      rw [bjs_inner, dif_pos h]
      exact ih h.2
  | case2 pos h =>
      intro hp
      rw [bjs_inner, dif_neg h]
      exact ⟨hp, h⟩

/-- The outer halving loop never moves the cursor out of the array. -/
theorem bjs_outer_lt (vals : List Int) (needle : Int) :
    ∀ jump pos, pos < vals.length → bjs_outer vals needle jump pos < vals.length := by
  intro jump pos
  induction jump, pos using bjs_outer.induct vals needle with
  | case1 pos =>
      intro hp
      rw [bjs_outer, if_pos rfl]
      exact hp
  | case2 jump pos h ih =>
      intro hp
      rw [bjs_outer, if_neg h]
      exact ih (bjs_inner_lt vals needle (jump - 1) pos hp)

/-- After the whole halving loop (entered with some `jump >= 1`), the
final cursor still satisfies the needle bound, and its successor is
either past the array or holds a value `> needle` (the last pass ran
with `jump = 1`). -/
theorem bjs_outer_post (vals : List Int) (needle : Int) :
    ∀ jump pos, 1 ≤ jump → pos < vals.length → getv vals pos ≤ needle →
      getv vals (bjs_outer vals needle jump pos) ≤ needle ∧
      (vals.length ≤ bjs_outer vals needle jump pos + 1 ∨
        needle < getv vals (bjs_outer vals needle jump pos + 1)) := by
  intro jump
  induction jump using Nat.strong_induction_on with
  | _ jump ih =>
      intro pos hj hp hle
      have hjne : ¬ jump = 0 := by omega
      rw [bjs_outer, if_neg hjne]
      have hpost := bjs_inner_post vals needle (jump - 1) pos hle
      have hlt := bjs_inner_lt vals needle (jump - 1) pos hp
      have hj1 : jump - 1 + 1 = jump := by omega
      rw [hj1] at hpost
      by_cases hhalf : jump / 2 = 0
      · have hj2 : jump = 1 := by omega
        subst hj2
        norm_num at hpost hlt ⊢
        rw [bjs_outer, if_pos rfl]
        refine ⟨hpost.1, ?_⟩
        by_cases hb : bjs_inner vals needle 0 pos + 1 < vals.length
        · right
          exact hpost.2 hb
        · left
          omega
      · exact ih (jump / 2) (Nat.div_lt_self (by omega) (by omega)) _
          (by omega) hlt hpost.1

/-- If some index at or after `i` holds the needle, the linear scan
starting at `i` reports found. -/
theorem ls_loop_found (vals : List Int) (needle : Int) :
    ∀ i, (∃ k, i ≤ k ∧ k < vals.length ∧ getv vals k = needle) →
      ls_loop vals needle i = true := by
  intro i
  induction i using ls_loop.induct vals needle with
  | case1 i h hv =>
      intro _
      rw [ls_loop, if_pos h, if_pos hv]
  | case2 i h hv ih =>
      intro hex
      rw [ls_loop, if_pos h, if_neg hv]
      obtain ⟨k, hk1, hk2, hk3⟩ := hex
      have : i + 1 ≤ k := by
        rcases Nat.eq_or_lt_of_le hk1 with he | hlt
        · exact absurd (he ▸ hk3) hv
        · omega
      exact ih ⟨k, this, hk2, hk3⟩
  | case3 i h =>
      intro hex
      obtain ⟨k, hk1, hk2, _⟩ := hex
      omega

/-- If no index at or after `i` holds the needle, the linear scan
starting at `i` reports not found. -/
theorem ls_loop_none (vals : List Int) (needle : Int) :
    ∀ i, (∀ k, i ≤ k → k < vals.length → getv vals k ≠ needle) →
      ls_loop vals needle i = false := by
  intro i
  induction i using ls_loop.induct vals needle with
  | case1 i h hv =>
      intro hall
      exact absurd hv (hall i le_rfl h)
  | case2 i h hv ih =>
      intro hall
      rw [ls_loop, if_pos h, if_neg hv]
      exact ih fun k hk1 hk2 => hall k (by omega) hk2
  | case3 i h =>
      intro _
      rw [ls_loop, if_neg h]

/-- C6: on a non-empty ascending array, both searches report found for
every needle present in the array, and both report not found for every
needle strictly outside the value range `[vals[0], vals[sz-1]]`. -/
theorem searches_correct (vals : List Int) (needle : Int)
    (hs : List.Sorted (· ≤ ·) vals) (hne : vals ≠ []) :
    (needle ∈ vals →
      binary_jump_search vals needle = true ∧ linear_search vals needle = true) ∧
    ((needle < getv vals 0 ∨ getv vals (vals.length - 1) < needle) →
      binary_jump_search vals needle = false ∧ linear_search vals needle = false) := by
  have hlen : 0 < vals.length := List.length_pos.mpr hne
  constructor
  · intro hmem
    obtain ⟨i, hi, hiv⟩ := List.mem_iff_getElem.mp hmem
    have hgvi : getv vals i = needle := by
      rw [getv, List.getD_eq_getElem vals 0 hi, hiv]
    have h0 : getv vals 0 ≤ needle := hgvi ▸ sorted_getv vals hs 0 i (by omega) hi
    constructor
    · have hfp : getv vals (bjs_final_pos vals needle) = needle := by
        by_cases h2 : 2 ≤ vals.length
        · have hhalf : 1 ≤ vals.length / 2 := by omega
          have hpost := bjs_outer_post vals needle (vals.length / 2) 0 hhalf hlen h0
          have hplt : bjs_final_pos vals needle < vals.length :=
            bjs_outer_lt vals needle (vals.length / 2) 0 hlen
          rw [bjs_final_pos] at hplt ⊢
          rcases hpost.2 with hb | hv
          · have hile : i ≤ bjs_outer vals needle (vals.length / 2) 0 := by omega
            have := sorted_getv vals hs i _ hile hplt
            rw [hgvi] at this
            omega
          · have hile : i ≤ bjs_outer vals needle (vals.length / 2) 0 := by
              by_contra hgt
              have hsucc : bjs_outer vals needle (vals.length / 2) 0 + 1 ≤ i := by omega
              have := sorted_getv vals hs _ i hsucc hi
              rw [hgvi] at this
              omega
            have := sorted_getv vals hs i _ hile hplt
            rw [hgvi] at this
            omega
        · have h1 : vals.length = 1 := by omega
          have hi0 : i = 0 := by omega
          have hz : vals.length / 2 = 0 := by omega
          rw [bjs_final_pos, hz, bjs_outer, if_pos rfl]
          rw [← hi0, hgvi]
      simp [binary_jump_search, hfp]
    · exact ls_loop_found vals needle 0 ⟨i, by omega, hi, hgvi⟩
  · intro hout
    have hnot : ∀ k, k < vals.length → getv vals k ≠ needle := by
      intro k hk
      rcases hout with hlo | hhi
      · have := sorted_getv vals hs 0 k (by omega) hk
        omega
      · have := sorted_getv vals hs k (vals.length - 1) (by omega) (by omega)
        omega
    constructor
    · have hplt : bjs_final_pos vals needle < vals.length :=
        bjs_outer_lt vals needle (vals.length / 2) 0 hlen
      simp [binary_jump_search, hnot _ hplt]
    · exact ls_loop_none vals needle 0 fun k _ hk => hnot k hk

/-- Witness for C6: the needle 2 is present in the sorted array
`[1, 2, 3]` and both searches find it. -/
theorem searches_correct_witness :
    binary_jump_search [1, 2, 3] 2 = true ∧ linear_search [1, 2, 3] 2 = true :=
  (searches_correct [1, 2, 3] 2 (by decide) (by decide)).1 (by decide)

/-! ## Quicksort correctness (claim C3) -/

/-- Index read through `getElem` for an in-range index. -/
theorem getv_eq_getElem (a : List Int) (i : Nat) (h : i < a.length) :
    getv a i = a[i] :=
  List.getD_eq_getElem a 0 h

/-- Writing back the value already stored changes nothing. -/
theorem set_getv_self : ∀ (a : List Int) (i : Nat), i < a.length →
    a.set i (getv a i) = a := by
  intro a
  induction a with
  | nil => intro i h; simp at h
  | cons b t ih =>
      intro i h
      cases i with
      | zero => simp [getv]
      | succ i =>
          have hg : getv (b :: t) (i + 1) = getv t i := by
            simp [getv]
          rw [List.set_cons_succ, hg, ih i (by simpa using h)]

/-- Effect of one `List.set` on element counts (index in range). -/
theorem count_set_step (v x : Int) :
    ∀ (a : List Int) (i : Nat), i < a.length →
      (a.set i v).count x + (if x = a.getD i 0 then 1 else 0) =
        a.count x + (if x = v then 1 else 0) := by
  intro a
  induction a with
  | nil => intro i h; simp at h
  | cons b t ih =>
      intro i h
      cases i with
      | zero =>
          simp only [List.set_cons_zero, List.count_cons, List.getD_cons_zero,
            beq_iff_eq]
          split_ifs <;> omega
      | succ i =>
          simp only [List.set_cons_succ, List.count_cons, List.getD_cons_succ,
            beq_iff_eq]
          have h2 := ih i (by simpa using h)
          split_ifs at h2 ⊢ <;> omega

/-- Swapping preserves the length. -/
theorem length_swapA (a : List Int) (i j : Nat) :
    (swapA a i j).length = a.length := by
  simp [swapA]

/-- Swapping two in-range positions permutes the list. -/
theorem swapA_perm (a : List Int) (i j : Nat) (hi : i < a.length)
    (hj : j < a.length) : List.Perm (swapA a i j) a := by
  by_cases hij : i = j
  · subst hij
    unfold swapA
    rw [List.set_set, set_getv_self a i hi]
  · rw [List.perm_iff_count]
    intro x
    have h1 := count_set_step (getv a j) x a i hi
    have h2 := count_set_step (getv a i) x (a.set i (getv a j)) j
      (by simpa using hj)
    have hj' : (a.set i (getv a j)).getD j 0 = a.getD j 0 :=
      getv_set_ne a i j (getv a j) (fun he => hij he.symm)
    rw [hj'] at h2
    have h3 : (swapA a i j).count x + (if x = a.getD j 0 then 1 else 0) =
        a.count x + (if x = a.getD j 0 then 1 else 0) := by
      unfold swapA
      rw [h2]
      simpa [getv] using h1
    exact Nat.add_right_cancel h3

/-- Reading the first swapped position. -/
theorem getv_swapA_left (a : List Int) (i j : Nat) (hij : i ≠ j)
    (hi : i < a.length) : getv (swapA a i j) i = getv a j := by
  unfold swapA
  rw [getv_set_ne _ _ _ _ hij, getv_set_eq _ _ _ hi]

/-- Reading the second swapped position. -/
theorem getv_swapA_right (a : List Int) (i j : Nat) (hj : j < a.length) :
    getv (swapA a i j) j = getv a i := by
  unfold swapA
  rw [getv_set_eq _ _ _ (by simpa using hj)]

/-- Full behaviour of `partition_1`'s cursor loop on the states the
program can reach.  The invariant carried through the iterations: the
pivot value sits untouched at `low`, the value under the left cursor is
within the pivot bound, everything strictly left of `left` is
`<= pivot`, everything strictly right of `right` is `> pivot`, and the
remaining fuel dominates the remaining cursor distance.  The
conclusions: length and multiset are preserved, positions `<= left` and
`> right` are untouched, the final right cursor `r` lies in
`[low, right]` with `array[r] <= pivot`, values on `[low, r)` are
`<= pivot`, values on `(r, high]` are `> pivot`, and pointwise bounds
over `[low, high]` are preserved. -/
theorem ploop_spec (pivot : Int) (high low : Nat) :
    ∀ (fuel : Nat) (a : List Int) (left right : Nat),
      low ≤ left → left < right → right ≤ high → high < a.length →
      getv a low = pivot →
      getv a left ≤ pivot →
      (∀ p, low ≤ p → p < left → getv a p ≤ pivot) →
      (∀ p, right < p → p ≤ high → pivot < getv a p) →
      right - left + 1 ≤ fuel →
      (ploop pivot high fuel a left right).1.length = a.length ∧
      List.Perm (ploop pivot high fuel a left right).1 a ∧
      (∀ p, p ≤ left → getv (ploop pivot high fuel a left right).1 p = getv a p) ∧
      (∀ p, right < p → getv (ploop pivot high fuel a left right).1 p = getv a p) ∧
      low ≤ (ploop pivot high fuel a left right).2.2 ∧
      (ploop pivot high fuel a left right).2.2 ≤ right ∧
      getv (ploop pivot high fuel a left right).1
        (ploop pivot high fuel a left right).2.2 ≤ pivot ∧
      (∀ p, low ≤ p → p < (ploop pivot high fuel a left right).2.2 →
        getv (ploop pivot high fuel a left right).1 p ≤ pivot) ∧
      (∀ p, (ploop pivot high fuel a left right).2.2 < p → p ≤ high →
        pivot < getv (ploop pivot high fuel a left right).1 p) ∧
      (∀ c : Int, (∀ p, low ≤ p → p ≤ high → getv a p ≤ c) →
        ∀ p, low ≤ p → p ≤ high →
          getv (ploop pivot high fuel a left right).1 p ≤ c) ∧
      (∀ c : Int, (∀ p, low ≤ p → p ≤ high → c < getv a p) →
        ∀ p, low ≤ p → p ≤ high →
          c < getv (ploop pivot high fuel a left right).1 p) := by
  intro fuel
  induction fuel with
  | zero =>
      intro a left right h1 h2 h3 h4 h5 h6 h7 h8 hfuel
      exact absurd hfuel (by omega)
  | succ fuel ih =>
      intro a left right h1 h2 h3 h4 h5 h6 h7 h8 hfuel
      have hl_adv : left + 1 ≤ lscan a pivot high left :=
        lscan_adv a pivot high left h6 (by omega)
      have hl_fence := lscan_fence a pivot high left
      have hr_le : rscan a pivot right ≤ right := rscan_le a pivot right
      have hr_low := rscan_low a pivot low (le_of_eq h5) right (by omega)
      have hr_fence := rscan_fence a pivot right
      by_cases hswap : lscan a pivot high left < rscan a pivot right
      · have hllen : lscan a pivot high left < a.length := by omega
        have hrlen : rscan a pivot right < a.length := by omega
        have hres : ploop pivot high (fuel + 1) a left right =
            ploop pivot high fuel
              (swapA a (lscan a pivot high left) (rscan a pivot right))
              (lscan a pivot high left) (rscan a pivot right) := by
          simp [ploop, h2, hswap]
        have hswl : getv (swapA a (lscan a pivot high left) (rscan a pivot right))
            (lscan a pivot high left) = getv a (rscan a pivot right) :=
          getv_swapA_left a _ _ (by omega) hllen
        have hswr : getv (swapA a (lscan a pivot high left) (rscan a pivot right))
            (rscan a pivot right) = getv a (lscan a pivot high left) :=
          getv_swapA_right a _ _ hrlen
        have hswo : ∀ p, p ≠ lscan a pivot high left → p ≠ rscan a pivot right →
            getv (swapA a (lscan a pivot high left) (rscan a pivot right)) p =
              getv a p :=
          fun p hp1 hp2 => getv_swapA_ne a _ _ p hp1 hp2
        have i7 : ∀ p, low ≤ p → p < lscan a pivot high left →
            getv (swapA a (lscan a pivot high left) (rscan a pivot right)) p ≤
              pivot := by
          intro p hp1 hp2
          rw [hswo p (by omega) (by omega)]
          by_cases hpl : p < left
          · exact h7 p hp1 hpl
          · exact hl_fence p (by omega) hp2
        have i8 : ∀ p, rscan a pivot right < p → p ≤ high →
            pivot < getv (swapA a (lscan a pivot high left)
              (rscan a pivot right)) p := by
          intro p hp1 hp2
          rw [hswo p (by omega) (by omega)]
          by_cases hpr : p ≤ right
          · exact hr_fence p hp1 hpr
          · exact h8 p (by omega) hp2
        have IH := ih (swapA a (lscan a pivot high left) (rscan a pivot right))
          (lscan a pivot high left) (rscan a pivot right)
          (by omega) hswap (by omega) (by rw [length_swapA]; exact h4)
          (by rw [hswo low (by omega) (by omega)]; exact h5)
          (by rw [hswl]; exact hr_low.2)
          i7 i8 (by omega)
        obtain ⟨L1, L2, L3, L4, L5, L6, L7, L8, L9, L10, L11⟩ := IH
        rw [hres]
        refine ⟨by rw [L1, length_swapA],
          L2.trans (swapA_perm a _ _ hllen hrlen), ?_, ?_, L5, by omega,
          L7, L8, L9, ?_, ?_⟩
        · intro p hp
          rw [L3 p (by omega), hswo p (by omega) (by omega)]
        · intro p hp
          rw [L4 p (by omega), hswo p (by omega) (by omega)]
        · intro c hc p hp1 hp2
          refine L10 c ?_ p hp1 hp2
          intro q hq1 hq2
          by_cases hql : q = lscan a pivot high left
          · rw [hql, hswl]
            exact hc (rscan a pivot right) (by omega) (by omega)
          · by_cases hqr : q = rscan a pivot right
            · rw [hqr, hswr]
              exact hc (lscan a pivot high left) (by omega) (by omega)
            · rw [hswo q hql hqr]
              exact hc q hq1 hq2
        · intro c hc p hp1 hp2
          refine L11 c ?_ p hp1 hp2
          intro q hq1 hq2
          by_cases hql : q = lscan a pivot high left
          · rw [hql, hswl]
            exact hc (rscan a pivot right) (by omega) (by omega)
          · by_cases hqr : q = rscan a pivot right
            · rw [hqr, hswr]
              exact hc (lscan a pivot high left) (by omega) (by omega)
            · rw [hswo q hql hqr]
              exact hc q hq1 hq2
      · have hres1 : (ploop pivot high (fuel + 1) a left right).1 = a := by
          simp [ploop, h2, hswap]
        have hres2 : (ploop pivot high (fuel + 1) a left right).2.2 =
            rscan a pivot right := by
          simp [ploop, h2, hswap]
        rw [hres1, hres2]
        refine ⟨rfl, List.Perm.refl a, fun p _ => rfl, fun p _ => rfl,
          hr_low.1, hr_le, hr_low.2, ?_, ?_, fun c hc => hc, fun c hc => hc⟩
        · intro p hp1 hp2
          by_cases hpl : p < left
          · exact h7 p hp1 hpl
          · exact hl_fence p (by omega) (by omega)
        · intro p hp1 hp2
          by_cases hpr : p ≤ right
          · exact hr_fence p hp1 hpr
          · exact h8 p (by omega) hp2

/-- Behaviour of `partition_1` for `low < high` with the subrange inside
the array: the result is a permutation that only touches `[low, high]`,
the returned index `r` is in `[low, high]` and carries the pivot value,
everything in `[low, r)` is `<= pivot`, everything in `(r, high]` is
`> pivot`, and pointwise bounds over `[low, high]` are preserved. -/
theorem partition_1_spec (a : List Int) (low high : Nat)
    (hlh : low < high) (hlen : high < a.length) :
    (partition_1 a low high).1.length = a.length ∧
    List.Perm (partition_1 a low high).1 a ∧
    (∀ p, p < low → getv (partition_1 a low high).1 p = getv a p) ∧
    (∀ p, high < p → getv (partition_1 a low high).1 p = getv a p) ∧
    low ≤ (partition_1 a low high).2 ∧
    (partition_1 a low high).2 ≤ high ∧
    getv (partition_1 a low high).1 (partition_1 a low high).2 = getv a low ∧
    (∀ p, low ≤ p → p < (partition_1 a low high).2 →
      getv (partition_1 a low high).1 p ≤ getv a low) ∧
    (∀ p, (partition_1 a low high).2 < p → p ≤ high →
      getv a low < getv (partition_1 a low high).1 p) ∧
    (∀ c : Int, (∀ p, low ≤ p → p ≤ high → getv a p ≤ c) →
      ∀ p, low ≤ p → p ≤ high → getv (partition_1 a low high).1 p ≤ c) ∧
    (∀ c : Int, (∀ p, low ≤ p → p ≤ high → c < getv a p) →
      ∀ p, low ≤ p → p ≤ high → c < getv (partition_1 a low high).1 p) := by
  obtain ⟨S1, S2, S3, S4, S5, S6, S7, S8, S9, S10, S11⟩ :=
    ploop_spec (getv a low) high low (high + 2 - low) a low high
      le_rfl hlh le_rfl hlen rfl (le_refl _)
      (fun p hp1 hp2 => absurd hp2 (by omega))
      (fun p hp1 hp2 => absurd hp1 (by omega))
      (by omega)
  have hpart : partition_1 a low high =
      (((ploop (getv a low) high (high + 2 - low) a low high).1.set low
          (getv (ploop (getv a low) high (high + 2 - low) a low high).1
            (ploop (getv a low) high (high + 2 - low) a low high).2.2)).set
        (ploop (getv a low) high (high + 2 - low) a low high).2.2
        (getv a low),
        (ploop (getv a low) high (high + 2 - low) a low high).2.2) := rfl
  rw [hpart]
  have hAlow : getv (ploop (getv a low) high (high + 2 - low) a low high).1 low
      = getv a low := S3 low le_rfl
  have hrlt : (ploop (getv a low) high (high + 2 - low) a low high).2.2 <
      (ploop (getv a low) high (high + 2 - low) a low high).1.length := by
    rw [S1]; omega
  have hlowlt : low < (ploop (getv a low) high (high + 2 - low) a low high).1.length := by
    rw [S1]; omega
  have hset_len : (((ploop (getv a low) high (high + 2 - low) a low high).1.set low
      (getv (ploop (getv a low) high (high + 2 - low) a low high).1
        (ploop (getv a low) high (high + 2 - low) a low high).2.2)).set
      (ploop (getv a low) high (high + 2 - low) a low high).2.2
      (getv a low)).length =
      (ploop (getv a low) high (high + 2 - low) a low high).1.length := by
    simp
  refine ⟨by rw [hset_len, S1], ?_, ?_, ?_, S5, by omega, ?_, ?_, ?_, ?_, ?_⟩
  · -- permutation: the final two writes are the swap of low and r
    have hsw : ((ploop (getv a low) high (high + 2 - low) a low high).1.set low
        (getv (ploop (getv a low) high (high + 2 - low) a low high).1
          (ploop (getv a low) high (high + 2 - low) a low high).2.2)).set
        (ploop (getv a low) high (high + 2 - low) a low high).2.2
        (getv a low) =
        swapA (ploop (getv a low) high (high + 2 - low) a low high).1 low
          (ploop (getv a low) high (high + 2 - low) a low high).2.2 := by
      unfold swapA
      rw [hAlow]
    rw [hsw]
    exact (swapA_perm _ _ _ hlowlt hrlt).trans S2
  · -- untouched below low
    intro p hp
    rw [getv_set_ne _ _ _ _ (by omega), getv_set_ne _ _ _ _ (by omega)]
    exact S3 p (by omega)
  · -- untouched above high
    intro p hp
    rw [getv_set_ne _ _ _ _ (by omega), getv_set_ne _ _ _ _ (by omega)]
    exact S4 p (by omega)
  · -- pivot lands at r
    rw [getv_set_eq _ _ _ (by simpa using hrlt)]
  · -- left fence
    intro p hp1 hp2
    by_cases hpl : p = low
    · subst hpl
      rw [getv_set_ne _ _ _ _ (by omega), getv_set_eq _ _ _ hlowlt]
      exact S7
    · rw [getv_set_ne _ _ _ _ (by omega), getv_set_ne _ _ _ _ (by omega)]
      exact S8 p hp1 hp2
  · -- right fence
    intro p hp1 hp2
    rw [getv_set_ne _ _ _ _ (by omega), getv_set_ne _ _ _ _ (by omega)]
    exact S9 p hp1 hp2
  · -- upper bound preservation
    intro c hc p hp1 hp2
    by_cases hpr : p = (ploop (getv a low) high (high + 2 - low) a low high).2.2
    · subst hpr
      rw [getv_set_eq _ _ _ (by simpa using hrlt)]
      exact hc low le_rfl (by omega)
    · by_cases hpl : p = low
      · subst hpl
        rw [getv_set_ne _ _ _ _ hpr, getv_set_eq _ _ _ hlowlt]
        exact S10 c hc _ S5 (by omega)
      · rw [getv_set_ne _ _ _ _ hpr, getv_set_ne _ _ _ _ hpl]
        exact S10 c hc p hp1 hp2
  · -- lower bound preservation
    intro c hc p hp1 hp2
    by_cases hpr : p = (ploop (getv a low) high (high + 2 - low) a low high).2.2
    · subst hpr
      rw [getv_set_eq _ _ _ (by simpa using hrlt)]
      exact hc low le_rfl (by omega)
    · by_cases hpl : p = low
      · subst hpl
        rw [getv_set_ne _ _ _ _ hpr, getv_set_eq _ _ _ hlowlt]
        exact S11 c hc _ S5 (by omega)
      · rw [getv_set_ne _ _ _ _ hpr, getv_set_ne _ _ _ _ hpl]
        exact S11 c hc p hp1 hp2

/-- Behaviour of `quick_sort_1` on any subrange (induction on the
subrange size `n`): the result is a permutation that only touches
`[low, high]`, the segment `[low, high]` ends up sorted, and pointwise
bounds over `[low, high]` are preserved. -/
theorem qs1_spec :
    ∀ (n low high : Nat) (a : List Int), high + 1 - low ≤ n →
      (low < high → high < a.length) →
      (quick_sort_1 a low high).length = a.length ∧
      List.Perm (quick_sort_1 a low high) a ∧
      (∀ p, p < low ∨ high < p → getv (quick_sort_1 a low high) p = getv a p) ∧
      (∀ p q, low ≤ p → p ≤ q → q ≤ high →
        getv (quick_sort_1 a low high) p ≤ getv (quick_sort_1 a low high) q) ∧
      (∀ c : Int, (∀ p, low ≤ p → p ≤ high → getv a p ≤ c) →
        ∀ p, low ≤ p → p ≤ high → getv (quick_sort_1 a low high) p ≤ c) ∧
      (∀ c : Int, (∀ p, low ≤ p → p ≤ high → c < getv a p) →
        ∀ p, low ≤ p → p ≤ high → c < getv (quick_sort_1 a low high) p) := by
  intro n
  induction n with
  | zero =>
      intro low high a hn hlen
      have hnl : ¬ low < high := by omega
      rw [quick_sort_1, dif_neg hnl]
      exact ⟨rfl, List.Perm.refl a, fun p _ => rfl,
        fun p q hp hpq hq => by
          have hpq2 : p = q := by omega
          rw [hpq2], fun c hc => hc, fun c hc => hc⟩
  | succ n ih =>
      intro low high a hn hlen
      by_cases hlh : low < high
      · have hlen' := hlen hlh
        obtain ⟨P1, P2, P3, P4, P5, P6, P7, P8, P9, P10, P11⟩ :=
          partition_1_spec a low high hlh hlen'
        have hqs : quick_sort_1 a low high =
            quick_sort_1 (quick_sort_1 (partition_1 a low high).1 low
              ((partition_1 a low high).2 - 1))
              ((partition_1 a low high).2 + 1) high := by
          rw [quick_sort_1, dif_pos hlh]
        generalize hA1 : (partition_1 a low high).1 = A1 at *
        generalize hr : (partition_1 a low high).2 = r at *
        have IHL := ih low (r - 1) A1 (by omega) (fun _ => by rw [P1]; omega)
        obtain ⟨L1, L2, L3, L4, L5, L6⟩ := IHL
        have IHR := ih (r + 1) high (quick_sort_1 A1 low (r - 1)) (by omega)
          (fun _ => by rw [L1, P1]; omega)
        obtain ⟨R1, R2, R3, R4, R5, R6⟩ := IHR
        rw [hqs]
        have hA2_noop : ¬ low < r - 1 → quick_sort_1 A1 low (r - 1) = A1 :=
          fun h => by rw [quick_sort_1, dif_neg h]
        have hA2r : getv (quick_sort_1 A1 low (r - 1)) r = getv a low := by
          by_cases hr1 : 1 ≤ r
          · rw [L3 r (Or.inr (by omega))]
            exact P7
          · rw [hA2_noop (by omega)]
            exact P7
        have hA3r : getv (quick_sort_1 (quick_sort_1 A1 low (r - 1)) (r + 1) high)
            r = getv a low := by
          rw [R3 r (Or.inl (by omega))]
          exact hA2r
        have hleft : ∀ p, low ≤ p → p < r →
            getv (quick_sort_1 A1 low (r - 1)) p ≤ getv a low := by
          intro p hp1 hp2
          exact L5 (getv a low) (fun w hw1 hw2 => P8 w hw1 (by omega)) p hp1
            (by omega)
        have hA3left : ∀ p, low ≤ p → p < r →
            getv (quick_sort_1 (quick_sort_1 A1 low (r - 1)) (r + 1) high) p =
              getv (quick_sort_1 A1 low (r - 1)) p :=
          fun p hp1 hp2 => R3 p (Or.inl (by omega))
        have hright : ∀ p, r < p → p ≤ high →
            getv a low <
              getv (quick_sort_1 (quick_sort_1 A1 low (r - 1)) (r + 1) high) p := by
          intro p hp1 hp2
          refine R6 (getv a low) ?_ p (by omega) hp2
          intro w hw1 hw2
          rw [L3 w (Or.inr (by omega))]
          exact P9 w (by omega) hw2
        have hcA2 : ∀ c : Int, (∀ w, low ≤ w → w ≤ high → getv a w ≤ c) →
            ∀ w, low ≤ w → w ≤ high → getv (quick_sort_1 A1 low (r - 1)) w ≤ c := by
          intro c hc w hw1 hw2
          have hcA1 := P10 c hc
          by_cases hw : r - 1 < w
          · rw [L3 w (Or.inr hw)]
            exact hcA1 w hw1 hw2
          · exact L5 c (fun u hu1 hu2 => hcA1 u hu1 (by omega)) w hw1 (by omega)
        have hcA2' : ∀ c : Int, (∀ w, low ≤ w → w ≤ high → c < getv a w) →
            ∀ w, low ≤ w → w ≤ high → c < getv (quick_sort_1 A1 low (r - 1)) w := by
          intro c hc w hw1 hw2
          have hcA1 := P11 c hc
          by_cases hw : r - 1 < w
          · rw [L3 w (Or.inr hw)]
            exact hcA1 w hw1 hw2
          · exact L6 c (fun u hu1 hu2 => hcA1 u hu1 (by omega)) w hw1 (by omega)
        refine ⟨by rw [R1, L1, P1], R2.trans (L2.trans P2), ?_, ?_, ?_, ?_⟩
        · -- untouched outside the subrange
          intro p hp
          rcases hp with hp | hp
          · rw [R3 p (Or.inl (by omega)), L3 p (Or.inl hp), P3 p hp]
          · rw [R3 p (Or.inr hp), L3 p (Or.inr (by omega)), P4 p hp]
        · -- the segment is sorted
          intro p q hp hpq hq
          rcases Nat.lt_trichotomy q r with hq2 | hq2 | hq2
          · rw [hA3left p hp (by omega), hA3left q (by omega) hq2]
            exact L4 p q hp hpq (by omega)
          · subst hq2
            rcases Nat.eq_or_lt_of_le hpq with hp2 | hp2
            · rw [hp2]
            · rw [hA3r, hA3left p hp hp2]
              exact hleft p hp hp2
          · rcases Nat.lt_trichotomy p r with hp2 | hp2 | hp2
            · have hv1 : getv (quick_sort_1 (quick_sort_1 A1 low (r - 1))
                  (r + 1) high) p ≤ getv a low := by
                rw [hA3left p hp hp2]
                exact hleft p hp hp2
              have hv2 := hright q hq2 hq
              omega
            · subst hp2
              rw [hA3r]
              exact le_of_lt (hright q hq2 hq)
            · exact R4 p q (by omega) hpq hq
        · -- upper bounds over the subrange are preserved
          intro c hc p hp1 hp2
          by_cases hp3 : p < r + 1
          · rw [R3 p (Or.inl hp3)]
            exact hcA2 c hc p hp1 hp2
          · exact R5 c (fun u hu1 hu2 => hcA2 c hc u (by omega) hu2) p
              (by omega) hp2
        · -- lower bounds over the subrange are preserved
          intro c hc p hp1 hp2
          by_cases hp3 : p < r + 1
          · rw [R3 p (Or.inl hp3)]
            exact hcA2' c hc p hp1 hp2
          · exact R6 c (fun u hu1 hu2 => hcA2' c hc u (by omega) hu2) p
              (by omega) hp2
      · rw [quick_sort_1, dif_neg hlh]
        exact ⟨rfl, List.Perm.refl a, fun p _ => rfl,
          fun p q hp hpq hq => by
            have hpq2 : p = q := by omega
            rw [hpq2], fun c hc => hc, fun c hc => hc⟩

/-- The left scan stops exactly at the first index whose condition
fails. -/
theorem lscan_eq_of (a : List Int) (pivot : Int) (high e : Nat)
    (hstop : ¬ (getv a e ≤ pivot ∧ e ≤ high)) :
    ∀ k left, e - left ≤ k → left ≤ e →
      (∀ p, left ≤ p → p < e → getv a p ≤ pivot ∧ p ≤ high) →
      lscan a pivot high left = e := by
  intro k
  induction k with
  | zero =>
      intro left h1 h2 h3
      have he : left = e := by omega
      subst he
      rw [lscan, dif_neg hstop]
  | succ k ih =>
      intro left h1 h2 h3
      rcases Nat.eq_or_lt_of_le h2 with he | hlt
      · subst he
        rw [lscan, dif_neg hstop]
      · rw [lscan, dif_pos (h3 left le_rfl hlt)]
        exact ih (left + 1) (by omega) (by omega)
          (fun p hp1 hp2 => h3 p (by omega) hp2)

/-- The right scan stops exactly at the first index (from the right)
whose value is within the pivot bound. -/
theorem rscan_eq_of (a : List Int) (pivot : Int) (e : Nat)
    (hve : getv a e ≤ pivot) :
    ∀ right, e ≤ right →
      (∀ p, e < p → p ≤ right → pivot < getv a p) →
      rscan a pivot right = e := by
  intro right
  induction right with
  | zero =>
      intro h1 h2
      have he : e = 0 := by omega
      simp [rscan, he]
  | succ r ihr =>
      intro h1 h2
      rcases Nat.eq_or_lt_of_le h1 with he | hlt
      · subst he
        simp only [rscan, if_neg (by omega : ¬ pivot < getv a (r + 1))]
      · have hc : pivot < getv a (r + 1) := h2 (r + 1) (by omega) le_rfl
        simp only [rscan, if_pos hc]
        exact ihr (by omega) (fun p hp1 hp2 => h2 p hp1 (by omega))

/-- In a range whose first point satisfies `P` and whose last does not,
some point satisfies `P` while its successor does not. -/
theorem exists_boundary (P : Nat → Prop) :
    ∀ (k low high : Nat), high - low ≤ k → low ≤ high → P low → ¬ P high →
      ∃ m, low ≤ m ∧ m < high ∧ P m ∧ ¬ P (m + 1) := by
  intro k
  induction k with
  | zero =>
      intro low high h1 h2 h3 h4
      have he : low = high := by omega
      exact absurd (he ▸ h3) h4
  | succ k ih =>
      intro low high h1 h2 h3 h4
      by_cases hnext : P (low + 1)
      · have hlh : low + 1 ≤ high := by
          rcases Nat.eq_or_lt_of_le h2 with he | hlt
          · exact absurd (he ▸ h3) h4
          · omega
        rcases Nat.eq_or_lt_of_le hlh with he2 | hlt2
        · exact absurd (he2 ▸ hnext) h4
        · obtain ⟨m, hm⟩ := ih (low + 1) high (by omega) (by omega) hnext h4
          exact ⟨m, by omega, hm.2.1, hm.2.2⟩
      · have hlh : low < high := by
          rcases Nat.eq_or_lt_of_le h2 with he | hlt
          · exact absurd (he ▸ h3) h4
          · exact hlt
        exact ⟨low, le_rfl, hlh, h3, hnext⟩

/-- `partition_1` written with its let-bindings expanded. -/
theorem partition_1_eq (a : List Int) (low high : Nat) :
    partition_1 a low high =
      (((ploop (getv a low) high (high + 2 - low) a low high).1.set low
          (getv (ploop (getv a low) high (high + 2 - low) a low high).1
            (ploop (getv a low) high (high + 2 - low) a low high).2.2)).set
        (ploop (getv a low) high (high + 2 - low) a low high).2.2
        (getv a low),
        (ploop (getv a low) high (high + 2 - low) a low high).2.2) := rfl

/-- When the cursors have already crossed after the first pair of scans,
one loop iteration exits with the scanned cursors and the array
unchanged. -/
theorem ploop_exit (pivot : Int) (high fuel : Nat) (a : List Int)
    (left right : Nat) (hlr : left < right) (hfuel : 0 < fuel)
    (hnoswap : ¬ lscan a pivot high left < rscan a pivot right) :
    ploop pivot high fuel a left right =
      (a, lscan a pivot high left, rscan a pivot right) := by
  obtain ⟨f, rfl⟩ : ∃ f, fuel = f + 1 := ⟨fuel - 1, by omega⟩
  simp [ploop, hlr, hnoswap]

/-- Writing the value at `m` to `low` and the value at `low` to `m`
changes nothing when the two values are equal. -/
theorem set_swap_self (a : List Int) (low m : Nat) (hlow : low < a.length)
    (hm : m < a.length) (hgm : getv a m = getv a low) :
    (a.set low (getv a m)).set m (getv a low) = a := by
  rw [hgm, set_getv_self a low hlow, ← hgm, set_getv_self a m hm]

/-- On a subrange that is already sorted ascending, `partition_1` leaves
the array unchanged: the left scan runs to the end of the prefix of
values `<= pivot`, the right scan backs down to the same boundary, no
swap happens, and the final two writes write back the values already
present. -/
theorem partition_1_sorted_fst (a : List Int) (low high : Nat)
    (hlh : low < high) (hlen : high < a.length)
    (hsorted : ∀ p q, low ≤ p → p ≤ q → q ≤ high → getv a p ≤ getv a q) :
    (partition_1 a low high).1 = a := by
  by_cases hcase : getv a high ≤ getv a low
  · have hl : lscan a (getv a low) high low = high + 1 := by
      refine lscan_eq_of a (getv a low) high (high + 1) ?_ (high + 1 - low) low
        (by omega) (by omega) ?_
      · rintro ⟨-, hb⟩
        omega
      · intro p hp1 hp2
        exact ⟨le_trans (hsorted p high hp1 (by omega) le_rfl) hcase, by omega⟩
    have hrv : rscan a (getv a low) high = high :=
      rscan_eq_of a (getv a low) high hcase high le_rfl
        (fun p hp1 hp2 => absurd hp1 (by omega))
    have hexit := ploop_exit (getv a low) high (high + 2 - low) a low high hlh
      (by omega) (by rw [hl, hrv]; omega)
    have hpart : partition_1 a low high =
        ((a.set low (getv a high)).set high (getv a low), high) := by
      rw [partition_1_eq, hexit, hl, hrv]
    have hgh : getv a high = getv a low :=
      le_antisymm hcase (hsorted low high le_rfl (by omega) le_rfl)
    rw [hpart]
    exact set_swap_self a low high (by omega) hlen hgh
  · obtain ⟨m, hm1, hm2, hm3, hm4⟩ :=
      exists_boundary (fun p => getv a p ≤ getv a low) (high - low) low high
        le_rfl (by omega) (le_refl _) hcase
    have hl : lscan a (getv a low) high low = m + 1 := by
      refine lscan_eq_of a (getv a low) high (m + 1)
        (fun hco => hm4 hco.1) (m + 1 - low) low (by omega) (by omega) ?_
      intro p hp1 hp2
      exact ⟨le_trans (hsorted p m hp1 (by omega) (by omega)) hm3, by omega⟩
    have hrv : rscan a (getv a low) high = m := by
      refine rscan_eq_of a (getv a low) m hm3 high (by omega) ?_
      intro p hp1 hp2
      have h1 : getv a low < getv a (m + 1) := by omega
      exact lt_of_lt_of_le h1 (hsorted (m + 1) p (by omega) (by omega) hp2)
    have hexit := ploop_exit (getv a low) high (high + 2 - low) a low high hlh
      (by omega) (by rw [hl, hrv]; omega)
    have hpart : partition_1 a low high =
        ((a.set low (getv a m)).set m (getv a low), m) := by
      rw [partition_1_eq, hexit, hl, hrv]
    have hgm : getv a m = getv a low :=
      le_antisymm hm3 (hsorted low m le_rfl hm1 (by omega))
    rw [hpart]
    exact set_swap_self a low m (by omega) (by omega) hgm

/-- On a subrange that is already sorted ascending, `quick_sort_1`
returns the array unchanged. -/
theorem qs1_sorted_eq :
    ∀ (n low high : Nat) (a : List Int), high + 1 - low ≤ n →
      (low < high → high < a.length) →
      (∀ p q, low ≤ p → p ≤ q → q ≤ high → getv a p ≤ getv a q) →
      quick_sort_1 a low high = a := by
  intro n
  induction n with
  | zero =>
      intro low high a h1 h2 h3
      rw [quick_sort_1, dif_neg (by omega)]
  | succ n ih =>
      intro low high a h1 h2 h3
      by_cases hlh : low < high
      · have hlen := h2 hlh
        have hfst := partition_1_sorted_fst a low high hlh hlen h3
        have hb := partition_1_bounds a low high hlh
        rw [quick_sort_1, dif_pos hlh, hfst]
        have hL : quick_sort_1 a low ((partition_1 a low high).2 - 1) = a :=
          ih low _ a (by omega) (fun _ => by omega)
            (fun p q hp hpq hq => h3 p q hp hpq (by omega))
        rw [hL]
        exact ih _ high a (by omega) (fun _ => hlen)
          (fun p q hp hpq hq => h3 p q (by omega) hpq hq)
      · rw [quick_sort_1, dif_neg hlh]

/-- `quick_sort` permutes its input. -/
theorem quick_sort_perm (a : List Int) : List.Perm (quick_sort a) a :=
  (qs1_spec (a.length + 1) 0 (a.length - 1) a (by omega)
    (fun _ => by omega)).2.1

/-- `quick_sort` sorts its input ascending. -/
theorem quick_sort_sorted (a : List Int) :
    List.Sorted (· ≤ ·) (quick_sort a) := by
  obtain ⟨Q1, _, _, Q4, _, _⟩ :=
    qs1_spec (a.length + 1) 0 (a.length - 1) a (by omega) (fun _ => by omega)
  unfold quick_sort
  refine List.pairwise_iff_getElem.mpr ?_
  intro i j hi hj hij
  have h4 := Q4 i j (by omega) (by omega) (by rw [Q1] at hj; omega)
  rw [getv_eq_getElem _ i hi, getv_eq_getElem _ j hj] at h4
  exact h4

/-- `quick_sort` returns an already-sorted array unchanged. -/
theorem quick_sort_of_sorted (a : List Int)
    (h : List.Sorted (· ≤ ·) a) : quick_sort a = a := by
  unfold quick_sort
  refine qs1_sorted_eq (a.length + 1) 0 (a.length - 1) a (by omega)
    (fun _ => by omega) ?_
  intro p q hp hpq hq
  by_cases hlen0 : a.length = 0
  · have ha : a = [] := List.length_eq_zero.mp hlen0
    subst ha
    simp [getv]
  · exact sorted_getv a h p q hpq (by omega)

/-- C3: `quick_sort` produces a permutation of its input that is sorted
ascending; an already-sorted input is returned unchanged, and hence
`quick_sort` is idempotent. -/
theorem quick_sort_correct (a : List Int) :
    List.Perm (quick_sort a) a ∧
    List.Sorted (· ≤ ·) (quick_sort a) ∧
    (List.Sorted (· ≤ ·) a → quick_sort a = a) ∧
    quick_sort (quick_sort a) = quick_sort a :=
  ⟨quick_sort_perm a, quick_sort_sorted a, quick_sort_of_sorted a,
    quick_sort_of_sorted (quick_sort a) (quick_sort_sorted a)⟩

/-- Witness for C3: the sorted array `[1, 2]` is returned unchanged. -/
theorem quick_sort_correct_witness : quick_sort [1, 2] = [1, 2] :=
  (quick_sort_correct [1, 2]).2.2.1 (by decide)
